import Mathlib

/-!
Verification development for the QEMU IMA test harness of the repository
(file tests/test_ima_qemu.py): a shallow embedding of the cpio newc archive
builder, the gzip wrapper, the ext4 image builder, the buck2 output parser,
the QEMU runner and the scenario assertions, together with theorems that
check the statements of the design document against the embedded code.

Bytes are modelled as natural numbers below 256 inside List Nat, names as
List Char, and fallible steps (ASCII encoding, external tools) as Option or
Except values.
-/

/-- Byte values of an ASCII string literal (every character below 128). -/
def asciiStr (s : String) : List Nat := s.toList.map Char.toNat

/-- Uppercase hexadecimal digit byte for a value below 16, as produced by the
Python format specifier X. -/
def hexDigitByte (d : Nat) : Nat := if d < 10 then 48 + d else 55 + d

/-- Fixed-width big-endian hexadecimal digit bytes: exactly k digits of n. -/
def hexFixed : Nat → Nat → List Nat
  | 0, _ => []
  | k + 1, n => hexFixed k (n / 16) ++ [hexDigitByte (n % 16)]

/-- Minimal-width hexadecimal digit bytes of n, with an explicit fuel bound;
fuel n + 1 always suffices because a number has at most n + 1 digits. -/
def pyHexDigits : Nat → Nat → List Nat
  | 0, _ => []
  | fuel + 1, n =>
    if n < 16 then [hexDigitByte n]
    else pyHexDigits fuel (n / 16) ++ [hexDigitByte (n % 16)]

/-- Python "%08X" formatting of a natural number: eight hexadecimal digits with
zero padding, or the minimal wider digit string when the value does not fit in
eight digits. -/
def pyHex8 (n : Nat) : List Nat :=
  if n < 4294967296 then hexFixed 8 n else pyHexDigits (n + 1) n

/-- The newc format magic tag 070701, as bytes. -/
def cpioMagic : List Nat := asciiStr "070701"

/-- Embedding of the header builder from the test file: the 6-byte magic
followed by 13 fields, each formatted with Python %08X, the final check field
fixed to zero. -/
def _cpio_header (ino mode uid gid nlink mtime filesize devmajor devminor
    rdevmajor rdevminor namesize : Nat) : List Nat :=
  cpioMagic ++ pyHex8 ino ++ pyHex8 mode ++ pyHex8 uid ++ pyHex8 gid ++
    pyHex8 nlink ++ pyHex8 mtime ++ pyHex8 filesize ++ pyHex8 devmajor ++
    pyHex8 devminor ++ pyHex8 rdevmajor ++ pyHex8 rdevminor ++
    pyHex8 namesize ++ pyHex8 0

/-- Python str.encode with the ascii codec: the byte values when all
characters are below 128, an encoding error (none) otherwise. -/
def encodeAscii (name : List Char) : Option (List Nat) :=
  if name.all (fun c => c.toNat ≤ 127) then some (name.map Char.toNat) else none

/-- Alignment padding of the entry builder: NUL bytes bringing a stream
position up to a 4-byte boundary, empty when already aligned. -/
def pad4 (pos : Nat) : List Nat :=
  if pos % 4 = 0 then [] else List.replicate (4 - pos % 4) 0

/-- Embedding of the single-entry builder: header, NUL-terminated name,
padding to 4-byte alignment after header plus name, data, padding of the data
to 4-byte alignment. The name length recorded in the header includes the
terminating NUL. Returns none when the name does not encode as ASCII. -/
def _cpio_entry (name : List Char) (data : List Nat) (mode ino nlink : Nat) :
    Option (List Nat) :=
  match encodeAscii name with
  | none => none
  | some nameBytes =>
    let namesize := name.length + 1
    let hdr := _cpio_header ino mode 0 0 nlink 0 data.length 0 0 0 0 namesize
    some (hdr ++ nameBytes ++ [0] ++ pad4 (hdr.length + namesize) ++ data ++
      pad4 data.length)

/-- Directory entry: fixed directory mode bits 0o40755 and link count 2. -/
def _cpio_dir (name : List Char) (ino : Nat) : Option (List Nat) :=
  _cpio_entry name [] 0o40755 ino 2

/-- Sentinel name of the end-of-archive trailer entry. -/
def trailerName : List Char := "TRAILER!!!".toList

/-- Trailer entry: sentinel name, zero mode, inode 0, empty content, and the
default link count 1 of the entry builder. -/
def _cpio_trailer : Option (List Nat) := _cpio_entry trailerName [] 0 0 1

/-- Padding always completes the position to a multiple of four. -/
theorem pad4_align (n : Nat) : (n + (pad4 n).length) % 4 = 0 := by
  by_cases h : n % 4 = 0
  · simp [pad4, h]
  · simp [pad4, h, List.length_replicate]
    omega

/-- No padding bytes are emitted at an aligned position. -/
theorem pad4_eq_nil (n : Nat) (h : n % 4 = 0) : pad4 n = [] := by
  simp [pad4, h]

/-- C4: every entry produced by the entry builder decomposes as header,
NUL-terminated name, name padding, data and data padding; the padded header
plus namesize length is a multiple of four, the padded content length is a
multiple of four, and no padding bytes are emitted for a part that is already
aligned. -/
theorem cpio_entry_padding_invariant (name : List Char) (data : List Nat)
    (mode ino nlink : Nat) (nameBytes : List Nat)
    (henc : encodeAscii name = some nameBytes) :
    ∃ hdr namesize, hdr = _cpio_header ino mode 0 0 nlink 0 data.length 0 0 0 0 namesize ∧
      namesize = name.length + 1 ∧
      _cpio_entry name data mode ino nlink =
        some (hdr ++ nameBytes ++ [0] ++ pad4 (hdr.length + namesize) ++ data ++
          pad4 data.length) ∧
      (hdr.length + namesize + (pad4 (hdr.length + namesize)).length) % 4 = 0 ∧
      (data.length + (pad4 data.length).length) % 4 = 0 ∧
      ((hdr.length + namesize) % 4 = 0 → pad4 (hdr.length + namesize) = []) ∧
      (data.length % 4 = 0 → pad4 data.length = []) := by
  refine ⟨_, _, rfl, rfl, ?_, pad4_align _, pad4_align _, pad4_eq_nil _, pad4_eq_nil _⟩
  simp [_cpio_entry, henc]

/-- Witness for C4 at the init entry of the initramfs. -/
theorem cpio_entry_padding_invariant_witness :
    encodeAscii ("init".toList) = some [105, 110, 105, 116] ∧
    ∃ hdr namesize, hdr = _cpio_header 9 0o100755 0 0 1 0 2 0 0 0 0 namesize ∧
      namesize = ("init".toList).length + 1 ∧
      _cpio_entry ("init".toList) [7, 7] 0o100755 9 1 =
        some (hdr ++ [105, 110, 105, 116] ++ [0] ++ pad4 (hdr.length + namesize) ++ [7, 7] ++
          pad4 2) ∧
      (hdr.length + namesize + (pad4 (hdr.length + namesize)).length) % 4 = 0 ∧
      (2 + (pad4 2).length) % 4 = 0 ∧
      ((hdr.length + namesize) % 4 = 0 → pad4 (hdr.length + namesize) = []) ∧
      (2 % 4 = 0 → pad4 2 = []) :=
  ⟨by decide, cpio_entry_padding_invariant ("init".toList) [7, 7] 0o100755 9 1
    [105, 110, 105, 116] (by decide)⟩

/-- Extraction of hexadecimal header field number i (zero-based) of an encoded
entry: eight bytes starting after the 6-byte magic and i earlier fields. -/
def headerField (e : List Nat) (i : Nat) : List Nat := (e.drop (6 + 8 * i)).take 8

/-- C3: the entry named init with 100 bytes of content and inode 5 records in
its header a filesize field equal to the 8-hex-digit encoding of 100 and a
namesize field equal to the 8-hex-digit encoding of 5, the name length plus
the terminating NUL. -/
theorem cpio_header_exactness (data : List Nat) (hlen : data.length = 100) :
    ∃ e, _cpio_entry ("init".toList) data 0o100755 5 1 = some e ∧
      headerField e 6 = asciiStr "00000064" ∧
      headerField e 11 = asciiStr "00000005" ∧
      ("init".toList).length + 1 = 5 := by
  have henc : encodeAscii ("init".toList) = some [105, 110, 105, 116] := by decide
  have hns : ("init".toList).length + 1 = 5 := by decide
  have hhl : (_cpio_header 5 0o100755 0 0 1 0 100 0 0 0 0 5).length = 110 := by decide
  have he : _cpio_entry ("init".toList) data 0o100755 5 1 =
      some ((_cpio_header 5 0o100755 0 0 1 0 100 0 0 0 0 5 ++ [105, 110, 105, 116] ++ [0] ++
        pad4 115) ++ (data ++ pad4 100)) := by
    simp only [_cpio_entry, henc, hlen, hns, hhl, List.append_assoc]
  refine ⟨_, he, ?_, ?_, hns⟩
  · simp only [headerField]
    rw [List.drop_append_of_le_length (by decide), List.take_append_of_le_length (by decide)]
    decide
  · simp only [headerField]
    rw [List.drop_append_of_le_length (by decide), List.take_append_of_le_length (by decide)]
    decide

/-- Witness for C3 at a concrete 100-byte content. -/
theorem cpio_header_exactness_witness :
    (List.replicate 100 7).length = 100 ∧
    ∃ e, _cpio_entry ("init".toList) (List.replicate 100 7) 0o100755 5 1 = some e ∧
      headerField e 6 = asciiStr "00000064" ∧
      headerField e 11 = asciiStr "00000005" ∧
      ("init".toList).length + 1 = 5 :=
  ⟨by simp, cpio_header_exactness (List.replicate 100 7) (by simp)⟩

/-- Description of one archive entry as passed to the entry builder. -/
structure CpioFileSpec where
  name : List Char
  data : List Nat
  mode : Nat
  ino : Nat
  nlink : Nat
deriving DecidableEq

/-- Concatenation of the encodings of a list of entries, failing when any
name fails to encode as ASCII. -/
def cpio_entries_bytes : List CpioFileSpec → Option (List Nat)
  | [] => some []
  | e :: es => do
    let b ← _cpio_entry e.name e.data e.mode e.ino e.nlink
    let r ← cpio_entries_bytes es
    pure (b ++ r)

/-- Trailer entry description: sentinel name, zero mode, inode 0, empty
content, default link count 1. -/
def trailerSpec : CpioFileSpec := ⟨trailerName, [], 0, 0, 1⟩

/-- Full archive stream: the given entries in order followed by the trailer
entry, the concatenation order used by build_initramfs. -/
def cpio_archive (es : List CpioFileSpec) : Option (List Nat) :=
  cpio_entries_bytes (es ++ [trailerSpec])

/-- The entry sequence written by build_initramfs: root directory, the fixed
subdirectories, the certificate and the init binary, with inodes assigned by
the incrementing counter starting at 1 and inode 0 left to the trailer. -/
def initramfsEntries (init_data cert_data : List Nat) : List CpioFileSpec :=
  [⟨".".toList, [], 0o40755, 1, 2⟩,
   ⟨"dev".toList, [], 0o40755, 2, 2⟩,
   ⟨"etc".toList, [], 0o40755, 3, 2⟩,
   ⟨"etc/keys".toList, [], 0o40755, 4, 2⟩,
   ⟨"mnt".toList, [], 0o40755, 5, 2⟩,
   ⟨"proc".toList, [], 0o40755, 6, 2⟩,
   ⟨"sys".toList, [], 0o40755, 7, 2⟩,
   ⟨"etc/keys/x509_ima.der".toList, cert_data, 0o100644, 8, 1⟩,
   ⟨"init".toList, init_data, 0o100755, 9, 1⟩]

/-- Little-endian 4-byte encoding of a 32-bit value. -/
def le32 (n : Nat) : List Nat :=
  [n % 256, n / 256 % 256, n / 65536 % 256, n / 16777216 % 256]

/-- Little-endian 2-byte encoding of a 16-bit value. -/
def le16 (n : Nat) : List Nat := [n % 256, n / 256 % 256]

/-- One bit step of the CRC-32 computation with polynomial EDB88320. -/
def crcBit (c : Nat) : Nat := if c % 2 = 1 then (c / 2) ^^^ 0xEDB88320 else c / 2

/-- Iterated CRC-32 bit steps. -/
def crcBits : Nat → Nat → Nat
  | 0, c => c
  | k + 1, c => crcBits k (crcBit c)

/-- CRC-32 checksum of a byte list, as recorded in the gzip container. -/
def crc32 (data : List Nat) : Nat :=
  0xFFFFFFFF ^^^
    data.foldl (fun crc b => (crc / 256) ^^^ crcBits 8 ((crc ^^^ b) % 256)) 0xFFFFFFFF

/-- Modelled from the spec: the compressed body of the container. The zlib
deflate transformation applied by the Python gzip module is an external
deterministic function of the archive bytes; it is modelled here by the
deterministic stored-block encoding of the DEFLATE format (final-block flag,
block length, complement of the block length, raw bytes). The claims checked
below use only that the body is a deterministic function of the input. -/
def deflateBody (data : List Nat) : List Nat :=
  if h : data.length ≤ 65535 then
    [1] ++ le16 data.length ++ le16 (65535 - data.length) ++ data
  else
    [0] ++ le16 65535 ++ le16 0 ++ data.take 65535 ++ deflateBody (data.drop 65535)
termination_by data.length
decreasing_by
  simp [List.length_drop]
  omega

/-- Gzip container as written by the Python gzip module for a raw file object
in write mode at the default compression level 9: magic 1f 8b, deflate method
8, no flags, the 4-byte little-endian mtime field, extra-flags byte 2 for the
highest compression level, unknown OS byte 255, then the compressed body, the
CRC-32 of the uncompressed bytes and the uncompressed length modulo 2 ^ 32. -/
def gzipCompress (mtime : Nat) (data : List Nat) : List Nat :=
  [31, 139, 8, 0] ++ le32 (mtime % 4294967296) ++ [2, 255] ++
    deflateBody data ++ le32 (crc32 data) ++ le32 (data.length % 4294967296)

/-- Embedding of build_initramfs: encodes the fixed entry sequence plus the
trailer and wraps the stream in the gzip container. The Python call pins the
mtime argument of GzipFile to zero; the now parameter models the ambient
clock value that the gzip header would record had the call left mtime unset,
and is therefore deliberately unused. -/
def build_initramfs (_now : Nat) (init_data cert_data : List Nat) : Option (List Nat) :=
  (cpio_archive (initramfsEntries init_data cert_data)).map (gzipCompress 0)

/-- C5: two invocations of the initramfs build on identical inputs produce
the same archive byte stream and byte-identical compressed outputs whatever
the ambient clock says, and the compressed container embeds a zeroed
timestamp in its mtime field (bytes 4 to 7). -/
theorem build_initramfs_deterministic (now1 now2 : Nat) (init_data cert_data : List Nat) :
    ∃ raw, cpio_archive (initramfsEntries init_data cert_data) = some raw ∧
      build_initramfs now1 init_data cert_data = some (gzipCompress 0 raw) ∧
      build_initramfs now2 init_data cert_data = some (gzipCompress 0 raw) ∧
      ((gzipCompress 0 raw).drop 4).take 4 = [0, 0, 0, 0] := by
  have h : (cpio_archive (initramfsEntries init_data cert_data)).isSome = true := rfl
  exact ⟨_, (Option.some_get h).symm, rfl, rfl, rfl⟩

/-- Projection of an entry list to names and modes. -/
def nameModes (es : List CpioFileSpec) : List (List Char × Nat) :=
  es.map fun e => (e.name, e.mode)

/-- Join path components with slashes. -/
def joinSlash : List (List Char) → List Char
  | [] => []
  | [c] => c
  | c :: cs => c ++ '/' :: joinSlash cs

/-- Proper directory path prefixes of a slash-separated path: for a/b/c these
are a and a/b. -/
def parentDirs (name : List Char) : List (List Char) :=
  let comps := name.splitOn '/'
  ((List.range comps.length).drop 1).map fun k => joinSlash (comps.take k)

/-- Check, walking the entry list in order, that every path prefix of every
entry name has appeared earlier as a directory entry (mode 0o40755); the first
argument accumulates the directory names seen so far. -/
def dirClosedB : List (List Char) → List (List Char × Nat) → Bool
  | _, [] => true
  | seen, (n, m) :: rest =>
    (parentDirs n).all (fun p => seen.contains p) &&
      dirClosedB (if m = 0o40755 then n :: seen else seen) rest

/-- C7: the archive written by build_initramfs is the encoding of an entry
sequence whose inodes are pairwise distinct, in which every path prefix of an
entry name appears earlier as a directory entry, and whose last entry is the
distinguished trailer with the fixed sentinel name, zero mode and empty
content. -/
theorem initramfs_archive_invariants (init_data cert_data : List Nat) :
    build_initramfs 0 init_data cert_data =
      (cpio_entries_bytes (initramfsEntries init_data cert_data ++ [trailerSpec])).map
        (gzipCompress 0) ∧
    ((initramfsEntries init_data cert_data ++ [trailerSpec]).map fun e => e.ino).Nodup ∧
    dirClosedB [] (nameModes (initramfsEntries init_data cert_data ++ [trailerSpec])) = true ∧
    (initramfsEntries init_data cert_data ++ [trailerSpec]).getLast? = some trailerSpec ∧
    trailerSpec.name = trailerName ∧ trailerSpec.mode = 0 ∧ trailerSpec.data = [] := by
  refine ⟨rfl, ?_, rfl, rfl, rfl, rfl, rfl⟩
  have hmap : ((initramfsEntries init_data cert_data ++ [trailerSpec]).map fun e => e.ino) =
      [1, 2, 3, 4, 5, 6, 7, 8, 9, 0] := rfl
  rw [hmap]
  decide

/-- C10: an entry whose name contains a character outside the ASCII range is
rejected by the entry builder with an encoding error, and an archive holding
such an entry is never produced. -/
theorem cpio_entry_nonascii_error :
    (∀ name data mode ino nlink, (∃ c ∈ name, 127 < c.toNat) →
      _cpio_entry name data mode ino nlink = none) ∧
    (∀ es : List CpioFileSpec, (∃ e ∈ es, ∃ c ∈ e.name, 127 < c.toNat) →
      cpio_archive es = none) := by
  have hentry : ∀ (name : List Char) data mode ino nlink, (∃ c ∈ name, 127 < c.toNat) →
      _cpio_entry name data mode ino nlink = none := by
    intro name data mode ino nlink h
    have hall : name.all (fun c => c.toNat ≤ 127) = false := by
      rw [List.all_eq_false]
      obtain ⟨c, hc, hgt⟩ := h
      refine ⟨c, hc, ?_⟩
      simp
      omega
    simp [_cpio_entry, encodeAscii, hall]
  refine ⟨hentry, ?_⟩
  intro es h
  induction es with
  | nil => simp at h
  | cons e es ih =>
    obtain ⟨e0, he0, hbad⟩ := h
    rcases List.mem_cons.mp he0 with he | he
    · subst he
      simp [cpio_archive, cpio_entries_bytes, hentry e0.name e0.data e0.mode e0.ino e0.nlink hbad]
    · have : cpio_archive es = none := ih ⟨e0, he, hbad⟩
      simp only [cpio_archive, List.cons_append, cpio_entries_bytes] at this ⊢
      cases hfirst : _cpio_entry e.name e.data e.mode e.ino e.nlink <;> simp [hfirst, this]

/-- Witness for C10 at a one-character non-ASCII name. -/
theorem cpio_entry_nonascii_error_witness :
    (∃ c ∈ ['é'], 127 < c.toNat) ∧
    _cpio_entry ['é'] [] 0o100644 1 1 = none ∧
    cpio_archive [⟨['é'], [], 0o100644, 1, 1⟩] = none :=
  ⟨by decide, cpio_entry_nonascii_error.1 ['é'] [] 0o100644 1 1 (by decide),
    cpio_entry_nonascii_error.2 [⟨['é'], [], 0o100644, 1, 1⟩]
      ⟨⟨['é'], [], 0o100644, 1, 1⟩, by simp, by decide⟩⟩

/-- Python substring containment, the operator in on strings: the marker
occurs contiguously inside the captured output. -/
def containsMarker (output marker : List Char) : Bool := decide (marker <:+: output)

/-- Marker emitted on the console by the guarded test binary only when it
actually executes. -/
def binaryRanMarker : List Char := "IMA-TEST-PASS".toList

/-- Marker emitted on the console by the init process reporting its own pass
verdict. -/
def initVerdictMarker : List Char := "IMA-RESULT:PASS".toList

/-- Assertion body of the enforce plus signed scenario test: both the
binary-ran marker and the init-verdict marker must occur in the captured
output. -/
def test_enforced_signed_binary_runs (output : List Char) : Bool :=
  containsMarker output binaryRanMarker && containsMarker output initVerdictMarker

/-- Assertion body of the enforce plus unsigned scenario test: the binary-ran
marker must be absent and the init-verdict marker present. -/
def test_enforced_unsigned_binary_rejected (output : List Char) : Bool :=
  !containsMarker output binaryRanMarker && containsMarker output initVerdictMarker

/-- Assertion body of the disabled plus unsigned scenario test: both markers
must occur in the captured output. -/
def test_disabled_unsigned_binary_runs (output : List Char) : Bool :=
  containsMarker output binaryRanMarker && containsMarker output initVerdictMarker

/-- The three canonical scenarios of the verifier. -/
inductive ScenarioCase
  | enforceSigned
  | enforceUnsigned
  | disabledUnsigned
deriving DecidableEq

/-- Modelled from the spec: the marker-outcome table of the scenario
verifier. The first component is the expected presence of the binary-ran
marker, the second the expected presence of the init-verdict marker. -/
def specMarkerTable : ScenarioCase → Bool × Bool
  | .enforceSigned => (true, true)
  | .enforceUnsigned => (false, true)
  | .disabledUnsigned => (true, true)

/-- Marker outcome of a scenario on a captured output, read off the table. -/
def specScenarioAssert (s : ScenarioCase) (output : List Char) : Prop :=
  containsMarker output binaryRanMarker = (specMarkerTable s).1 ∧
  containsMarker output initVerdictMarker = (specMarkerTable s).2

/-- C2: each scenario test asserts exactly the marker outcomes of the table:
enforce plus signed requires both markers, enforce plus unsigned requires the
binary-ran marker absent and the init-verdict marker present, disabled plus
unsigned requires both markers. -/
theorem scenario_assertions_match_table (output : List Char) :
    (test_enforced_signed_binary_runs output = true ↔
      specScenarioAssert ScenarioCase.enforceSigned output) ∧
    (test_enforced_unsigned_binary_rejected output = true ↔
      specScenarioAssert ScenarioCase.enforceUnsigned output) ∧
    (test_disabled_unsigned_binary_runs output = true ↔
      specScenarioAssert ScenarioCase.disabledUnsigned output) := by
  cases hb : containsMarker output binaryRanMarker <;>
    cases hi : containsMarker output initVerdictMarker <;>
      simp [test_enforced_signed_binary_runs, test_enforced_unsigned_binary_rejected,
        test_disabled_unsigned_binary_runs, specScenarioAssert, specMarkerTable, hb, hi]

/-- Behavior of the emulator process under the wall-clock budget of
subprocess.run: completion within the timeout with captured stdout and
stderr, or exceeding the budget with only part of the text produced. -/
inductive QemuOutcome
  | completes (out err : List Char)
  | hangs (out err : List Char)
deriving DecidableEq

/-- Error raised by subprocess.run when the timeout expires. The child
process is killed by subprocess.run before the error propagates. -/
inductive RunError
  | timeoutExpired
deriving DecidableEq

/-- Embedding of run_qemu: subprocess.run with capture_output and a timeout
either returns the completed process, in which case run_qemu returns stdout
concatenated with stderr, or raises TimeoutExpired, which run_qemu does not
catch. The kernel, initramfs, disk and extra command-line arguments do not
influence this control flow. -/
def run_qemu (_kernel : List Char) (_initramfs_data : List Nat) (_disk : List Char)
    (_cmdline_extra : List Char) (outcome : QemuOutcome) : Except RunError (List Char) :=
  match outcome with
  | .completes out err => .ok (out ++ err)
  | .hangs _ _ => .error .timeoutExpired

/-- Counterexample to C1 as stated: at a concrete timed-out boot with console
text already captured, run_qemu raises TimeoutExpired instead of returning
the captured text. -/
theorem run_qemu_timeout_cex :
    run_qemu ("bzImage".toList) [31, 139] ("disk.img".toList)
      ("ima_appraise=enforce ima_test_mode=enforce_signed".toList)
      (QemuOutcome.hangs ("[    0.000000] Linux version".toList) []) =
      Except.error RunError.timeoutExpired ∧
    (Except.error RunError.timeoutExpired : Except RunError (List Char)) ≠
      Except.ok ("[    0.000000] Linux version".toList ++ []) :=
  ⟨rfl, fun h => Except.noConfusion h⟩

/-- C1 amended: on every boot in which the emulator exceeds the wall-clock
timeout, subprocess.run kills the emulator process, and run_qemu propagates
the TimeoutExpired exception to the caller instead of returning the console
text captured so far. -/
theorem run_qemu_timeout_raises (kernel : List Char) (initramfs_data : List Nat)
    (disk cmdline_extra out err : List Char) :
    run_qemu kernel initramfs_data disk cmdline_extra (QemuOutcome.hangs out err) =
      Except.error RunError.timeoutExpired := rfl

/-- Failure modes of the ext4 image build: a non-zero mke2fs exit under
check=True, the assertion that a key is supplied when signing, the assertion
that the signer produced the detached signature file, and a non-zero debugfs
exit under check=True. -/
inductive Ext4Error
  | mke2fsNonzero
  | keyMissing
  | sigFileMissing
  | debugfsNonzero
deriving DecidableEq

/-- Result of a successful image build: the image path inside the work
directory and the debugfs batch commands applied to it. -/
structure Ext4Result where
  img : List Char
  debugfsCmds : List (List Char)
deriving DecidableEq

/-- The file-copy command of the debugfs batch. -/
def writeCmd (binary_path : List Char) : List Char :=
  "write ".toList ++ binary_path ++ " /ima-test".toList

/-- The mode-setting command of the debugfs batch. -/
def modeCmd : List Char := "set_inode_field /ima-test mode 0100755".toList

/-- The xattr-attachment command of the debugfs batch, naming the detached
signature file produced by the signer. -/
def eaSetCmd (sig_file : List Char) : List Char :=
  "ea_set /ima-test security.ima -f ".toList ++ sig_file

/-- Embedding of build_ext4_image over an explicit environment: mke2fs_exit
and debugfs_exit are the exit codes of the two check=True subprocess steps,
evmctl_exit the exit code of the signer, which is invoked without check, and
evmctl_sig_created states whether the signer left the detached .sig file in
the work directory. On the signed path the signer runs first, its exit code
is ignored, the existence of the signature file is asserted, and the ea_set
command is appended to the batch that debugfs then applies with check=True. -/
def build_ext4_image (work binary_path : List Char) (signed : Bool)
    (key_path : Option (List Char)) (mke2fs_exit _evmctl_exit : Nat)
    (evmctl_sig_created : Bool) (debugfs_exit : Nat) : Except Ext4Error Ext4Result :=
  if mke2fs_exit ≠ 0 then .error .mke2fsNonzero
  else
    let cmds := [writeCmd binary_path, modeCmd]
    if signed then
      match key_path with
      | none => .error .keyMissing
      | some _ =>
        if evmctl_sig_created then
          let cmds2 := cmds ++ [eaSetCmd (work ++ "/ima-test.sig".toList)]
          if debugfs_exit ≠ 0 then .error .debugfsNonzero
          else .ok ⟨work ++ "/disk.img".toList, cmds2⟩
        else .error .sigFileMissing
    else
      if debugfs_exit ≠ 0 then .error .debugfsNonzero
      else .ok ⟨work ++ "/disk.img".toList, cmds⟩

/-- C8: on the signed path, with the two check=True filesystem steps
succeeding, the result of the build is independent of the signer exit code,
the build succeeds exactly when the detached signature file exists after the
signer ran, and on success the ea_set command naming the signature file is
part of the applied debugfs batch. -/
theorem build_ext4_image_signed_policy (work binary_path key : List Char)
    (e1 e2 : Nat) (sig : Bool) (mke2fs_exit debugfs_exit : Nat)
    (hmk : mke2fs_exit = 0) (hdb : debugfs_exit = 0) :
    (build_ext4_image work binary_path true (some key) mke2fs_exit e1 sig debugfs_exit =
      build_ext4_image work binary_path true (some key) mke2fs_exit e2 sig debugfs_exit) ∧
    ((∃ r, build_ext4_image work binary_path true (some key) mke2fs_exit e1 sig debugfs_exit =
      Except.ok r) ↔ sig = true) ∧
    (sig = true → ∃ r,
      build_ext4_image work binary_path true (some key) mke2fs_exit e1 sig debugfs_exit =
        Except.ok r ∧ eaSetCmd (work ++ "/ima-test.sig".toList) ∈ r.debugfsCmds) := by
  subst hmk hdb
  cases sig <;> simp [build_ext4_image]

/-- Witness for C8 with the signature present and differing signer exits. -/
theorem build_ext4_image_signed_policy_witness :
    (0 : Nat) = 0 ∧
    ((build_ext4_image ("/tmp/w".toList) ("/out/bin".toList) true (some ("/keys/k".toList))
        0 7 true 0 =
      build_ext4_image ("/tmp/w".toList) ("/out/bin".toList) true (some ("/keys/k".toList))
        0 0 true 0) ∧
    ((∃ r, build_ext4_image ("/tmp/w".toList) ("/out/bin".toList) true (some ("/keys/k".toList))
        0 7 true 0 = Except.ok r) ↔ true = true) ∧
    (true = true → ∃ r,
      build_ext4_image ("/tmp/w".toList) ("/out/bin".toList) true (some ("/keys/k".toList))
        0 7 true 0 = Except.ok r ∧
        eaSetCmd ("/tmp/w".toList ++ "/ima-test.sig".toList) ∈ r.debugfsCmds)) :=
  ⟨rfl, build_ext4_image_signed_policy ("/tmp/w".toList) ("/out/bin".toList)
    ("/keys/k".toList) 7 0 true 0 0 rfl rfl⟩

/-- Python whitespace characters relevant to str.strip and str.split with
the default separator: space, tab, newline, carriage return, vertical tab
and form feed. -/
def isPyWs (c : Char) : Bool :=
  c = ' ' || c = '\t' || c = '\n' || c = '\r' || c = '\x0b' || c = '\x0c'

/-- Python str.strip with no argument: remove whitespace from both ends. -/
def pyStrip (s : List Char) : List Char :=
  ((s.dropWhile isPyWs).reverse.dropWhile isPyWs).reverse

/-- Python str.splitlines restricted to the newline terminator: the segments
between newlines, without a trailing empty segment after a final newline. -/
def splitLines (s : List Char) : List (List Char) :=
  if s = [] then []
  else
    let ps := s.splitOn '\n'
    if ps.getLast? = some [] then ps.dropLast else ps

/-- Python line.split(None, 1): skip leading whitespace; when the line is
only whitespace the result is empty; otherwise the first whitespace-delimited
token and, when more non-whitespace text follows, the remainder of the line
after the whitespace run following the token, kept verbatim. -/
def pySplitOnce (l : List Char) : List (List Char) :=
  let l1 := l.dropWhile isPyWs
  if l1 = [] then []
  else
    let tok := l1.takeWhile fun c => !isPyWs c
    let rest := (l1.dropWhile fun c => !isPyWs c).dropWhile isPyWs
    if rest = [] then [tok] else [tok, rest]

/-- Whitespace tokenization of Python str.split with no separator and no
split limit, with an explicit fuel bound; fuel length + 1 always suffices. -/
def pyTokensGo : Nat → List Char → List (List Char)
  | 0, _ => []
  | fuel + 1, s =>
    let s1 := s.dropWhile isPyWs
    if s1 = [] then []
    else (s1.takeWhile fun c => !isPyWs c) ::
      pyTokensGo fuel (s1.dropWhile fun c => !isPyWs c)

/-- Whitespace tokens of a string. -/
def pyTokens (s : List Char) : List (List Char) := pyTokensGo (s.length + 1) s

/-- The last whitespace-separated token of a line, empty for an all
whitespace line. -/
def lastWsToken (l : List Char) : List Char := (pyTokens l).getLast?.getD []

/-- Failure modes of the buck2 helper: assertion failure on a non-zero exit
of the build invocation, and the pytest failure when no output line parses. -/
inductive BuckError
  | buildFailed
  | parseFailed
deriving DecidableEq

/-- Embedding of _buck2_build given the exit code and standard output of the
external build invocation: on exit 0, strip the output, split it into lines,
and return the second part of the first line that str.split(None, 1) divides
into exactly two parts. -/
def _buck2_build (returncode : Nat) (stdout : List Char) : Except BuckError (List Char) :=
  if returncode ≠ 0 then .error .buildFailed
  else
    match (splitLines (pyStrip stdout)).findSome? (fun line =>
      match pySplitOnce line with
      | [_, rest] => some rest
      | _ => none) with
    | some p => .ok p
    | none => .error .parseFailed

/-- Counterexample to C9 as stated: on a successful build whose relevant
output line has three whitespace-separated tokens, _buck2_build returns the
whole remainder after the first token, not the last token of the line. -/
theorem buck2_build_last_token_cex :
    _buck2_build 0 ("//tests:ima buck-out/v2/gen out".toList) =
      Except.ok ("buck-out/v2/gen out".toList) ∧
    lastWsToken ("//tests:ima buck-out/v2/gen out".toList) = "out".toList ∧
    ("buck-out/v2/gen out".toList : List Char) ≠ "out".toList :=
  ⟨rfl, rfl, by decide⟩

/-- A two-element result of the single split determines its pieces: the line
has a first token, the second element is the remainder after the whitespace
run following that token, and that remainder is nonempty. -/
theorem pySplitOnce_eq_two (line a r : List Char) (h : pySplitOnce line = [a, r]) :
    line.dropWhile isPyWs ≠ [] ∧
    a = (line.dropWhile isPyWs).takeWhile (fun c => !isPyWs c) ∧
    r = ((line.dropWhile isPyWs).dropWhile (fun c => !isPyWs c)).dropWhile isPyWs ∧
    r ≠ [] := by
  unfold pySplitOnce at h
  by_cases h1 : line.dropWhile isPyWs = []
  · simp [h1] at h
  · by_cases h2 : ((line.dropWhile isPyWs).dropWhile (fun c => !isPyWs c)).dropWhile isPyWs = []
    · simp [h1, h2] at h
    · simp [h1, h2] at h
      refine ⟨h1, h.1.symm, h.2.symm, ?_⟩
      rw [← h.2]
      exact h2

/-- Tokenizing an empty string gives no tokens at any fuel. -/
theorem pyTokensGo_nil (fuel : Nat) : pyTokensGo fuel [] = [] := by
  cases fuel <;> simp [pyTokensGo]

/-- When the single split yields a token and a remainder free of whitespace,
that remainder is the last whitespace token of the line. -/
theorem lastWsToken_of_pySplitOnce (line a r : List Char)
    (h : pySplitOnce line = [a, r]) (hr : ∀ c ∈ r, isPyWs c = false) :
    lastWsToken line = r := by
  obtain ⟨h1, ha, hrdef, hrne⟩ := pySplitOnce_eq_two line a r h
  have hlinene : line ≠ [] := by
    intro e
    rw [e] at h1
    simp at h1
  obtain ⟨m, hm⟩ : ∃ m, line.length = m + 1 := by
    cases hl : line.length with
    | zero => exact absurd (List.length_eq_zero.mp hl) hlinene
    | succ k => exact ⟨k, rfl⟩
  have hs1 : ((line.dropWhile isPyWs).dropWhile (fun c => !isPyWs c)).dropWhile isPyWs = r :=
    hrdef.symm
  have htw : r.takeWhile (fun c => !isPyWs c) = r :=
    List.takeWhile_eq_self_iff.mpr (by intro x hx; simp [hr x hx])
  have hdw : r.dropWhile (fun c => !isPyWs c) = [] :=
    List.dropWhile_eq_nil_iff.mpr (by intro x hx; simp [hr x hx])
  have h2 : pyTokensGo line.length ((line.dropWhile isPyWs).dropWhile (fun c => !isPyWs c)) =
      [r] := by
    rw [hm]
    simp only [pyTokensGo, hs1, hrne, if_neg, htw, hdw, pyTokensGo_nil]
    simp [hrne]
  have htok : pyTokens line =
      a :: pyTokensGo line.length ((line.dropWhile isPyWs).dropWhile (fun c => !isPyWs c)) := by
    simp only [pyTokens, pyTokensGo, h1, if_neg, ha]
    simp [h1]
  rw [lastWsToken, htok, h2]
  simp

/-- C9 amended: when the external build invocation succeeds, the path
returned by _buck2_build is the remainder of the first two-part output line
after the whitespace run following its first token; it coincides with the
last whitespace-separated token of that line exactly when the remainder
contains no whitespace. -/
theorem buck2_build_returns_line_remainder (stdout r : List Char)
    (h : _buck2_build 0 stdout = Except.ok r) :
    ∃ line ∈ splitLines (pyStrip stdout),
      pySplitOnce line = [(line.dropWhile isPyWs).takeWhile (fun c => !isPyWs c), r] ∧
      ((∀ c ∈ r, isPyWs c = false) → lastWsToken line = r) := by
  unfold _buck2_build at h
  rw [if_neg (by simp)] at h
  rcases hfind : (splitLines (pyStrip stdout)).findSome? (fun line =>
      match pySplitOnce line with
      | [_, rest] => some rest
      | _ => none) with _ | p
  · rw [hfind] at h
    exact absurd h (by simp)
  · rw [hfind] at h
    have hpr : p = r := by
      by_cases h00 : (0 : Nat) = 0
      · simpa using h
      · exact absurd rfl h00
    subst hpr
    obtain ⟨line, hmem, hf⟩ := List.exists_of_findSome?_eq_some hfind
    rcases hsp : pySplitOnce line with _ | ⟨x, _ | ⟨y, _ | ⟨z, zs⟩⟩⟩
    · rw [hsp] at hf
      simp at hf
    · rw [hsp] at hf
      simp at hf
    · rw [hsp] at hf
      have hyp : y = p := by simpa using hf
      subst hyp
      obtain ⟨h1, ha, hrdef, hrne⟩ := pySplitOnce_eq_two line x y hsp
      refine ⟨line, hmem, ?_, ?_⟩
      · rw [hsp, ha]
      · intro hws
        exact lastWsToken_of_pySplitOnce line x y hsp hws
    · rw [hsp] at hf
      simp at hf

/-- Witness for the amended C9 on a two-token build output line. -/
theorem buck2_build_returns_line_remainder_witness :
    _buck2_build 0 ("//tests:ima /out/path".toList) = Except.ok ("/out/path".toList) ∧
    ∃ line ∈ splitLines (pyStrip ("//tests:ima /out/path".toList)),
      pySplitOnce line =
        [(line.dropWhile isPyWs).takeWhile (fun c => !isPyWs c), "/out/path".toList] ∧
      ((∀ c ∈ ("/out/path".toList), isPyWs c = false) →
        lastWsToken line = "/out/path".toList) :=
  ⟨rfl, buck2_build_returns_line_remainder ("//tests:ima /out/path".toList)
    ("/out/path".toList) rfl⟩

/-- Decode one hexadecimal digit byte, accepting the uppercase digits that
the encoder emits. -/
def parseHexByte (b : Nat) : Option Nat :=
  if 48 ≤ b ∧ b ≤ 57 then some (b - 48)
  else if 65 ≤ b ∧ b ≤ 70 then some (b - 55)
  else none

/-- Fold hexadecimal digit bytes into a value, most significant digit
first. -/
def parseHexList : List Nat → Nat → Option Nat
  | [], acc => some acc
  | b :: r, acc =>
    match parseHexByte b with
    | some d => parseHexList r (acc * 16 + d)
    | none => none

/-- Read an 8-digit hexadecimal field from the head of a stream. -/
def readHex8 (s : List Nat) : Option (Nat × List Nat) :=
  if 8 ≤ s.length then (parseHexList (s.take 8) 0).map (fun v => (v, s.drop 8)) else none

/-- Length of the alignment padding a standard reader skips. -/
def pad4Len (pos : Nat) : Nat := if pos % 4 = 0 then 0 else 4 - pos % 4

/-- Decode ASCII name bytes back to characters. -/
def bytesToName (l : List Nat) : List Char := l.map Char.ofNat

/-- Fixed-width hexadecimal encoding always has the requested width. -/
theorem hexFixed_length (k n : Nat) : (hexFixed k n).length = k := by
  induction k generalizing n with
  | zero => rfl
  | succ m ih => simp [hexFixed, ih]

/-- Every digit byte emitted by the encoder parses back to the digit. -/
theorem parseHexByte_hexDigitByte : ∀ d, d < 16 → parseHexByte (hexDigitByte d) = some d := by
  decide

/-- Parsing distributes over concatenation of digit strings. -/
theorem parseHexList_append (a b : List Nat) (acc : Nat) :
    parseHexList (a ++ b) acc = (parseHexList a acc).bind (fun v => parseHexList b v) := by
  induction a generalizing acc with
  | nil => rfl
  | cons x xs ih =>
    simp only [List.cons_append, parseHexList]
    cases parseHexByte x <;> simp [ih]

/-- Parsing the fixed-width encoding of a value below the width bound
recovers the value on top of the accumulator. -/
theorem parseHexList_hexFixed (k n acc : Nat) (h : n < 16 ^ k) :
    parseHexList (hexFixed k n) acc = some (acc * 16 ^ k + n) := by
  induction k generalizing n acc with
  | zero =>
    have : n = 0 := by
      simpa using h
    simp [this, hexFixed, parseHexList]
  | succ m ih =>
    have hdiv : n / 16 < 16 ^ m := by
      rw [Nat.div_lt_iff_lt_mul (by norm_num)]
      calc n < 16 ^ (m + 1) := h
        _ = 16 ^ m * 16 := by rw [pow_succ]
    have hmod : n % 16 < 16 := Nat.mod_lt _ (by norm_num)
    simp only [hexFixed, parseHexList_append, ih (n / 16) acc hdiv, Option.bind_some,
      parseHexList, parseHexByte_hexDigitByte _ hmod]
    have harith : (acc * 16 ^ m + n / 16) * 16 + n % 16 = acc * 16 ^ (m + 1) + n := by
      have hp : (16 : Nat) ^ (m + 1) = 16 ^ m * 16 := by rw [pow_succ]
      rw [hp]
      generalize (16 : Nat) ^ m = K
      have := Nat.div_add_mod n 16
      ring_nf
      omega
    simp [harith]

/-- Reading eight digits off the head of a stream that starts with the
fixed-width encoding of a 32-bit value recovers the value and the tail. -/
theorem readHex8_encode (n : Nat) (rest : List Nat) (h : n < 4294967296) :
    readHex8 (hexFixed 8 n ++ rest) = some (n, rest) := by
  have hl : (hexFixed 8 n).length = 8 := hexFixed_length 8 n
  have htake : (hexFixed 8 n ++ rest).take 8 = hexFixed 8 n := List.take_left' hl
  have hdrop : (hexFixed 8 n ++ rest).drop 8 = rest := List.drop_left' hl
  have hlen : 8 ≤ (hexFixed 8 n ++ rest).length := by
    rw [List.length_append, hl]
    omega
  have hparse : parseHexList (hexFixed 8 n) 0 = some n := by
    have := parseHexList_hexFixed 8 n 0 (by simpa using h)
    simpa using this
  simp [readHex8, hlen, htake, hdrop, hparse, hl]

/-- Python %08X agrees with the fixed 8-digit encoding below 2 ^ 32. -/
theorem pyHex8_of_lt (n : Nat) (h : n < 4294967296) : pyHex8 n = hexFixed 8 n := by
  simp [pyHex8, h]

/-- Modelled from the spec: one entry step of a standard newc reader (the
reader itself is not part of the repository). It checks the 6-byte magic,
reads the 13 hexadecimal header fields, reads the name whose recorded length
includes the terminating NUL, checks the NUL, skips the alignment padding
after the 110-byte header plus name, reads filesize content bytes and skips
the content padding, returning the decoded name, mode and content together
with the remaining stream. -/
def decodeEntry (s : List Nat) : Option ((List Char × Nat × List Nat) × List Nat) :=
  if s.take 6 ≠ cpioMagic then none
  else match readHex8 (s.drop 6) with
  | none => none
  | some (_ino, s1) =>
  match readHex8 s1 with
  | none => none
  | some (mode, s2) =>
  match readHex8 s2 with
  | none => none
  | some (_uid, s3) =>
  match readHex8 s3 with
  | none => none
  | some (_gid, s4) =>
  match readHex8 s4 with
  | none => none
  | some (_nlink, s5) =>
  match readHex8 s5 with
  | none => none
  | some (_mtime, s6) =>
  match readHex8 s6 with
  | none => none
  | some (filesize, s7) =>
  match readHex8 s7 with
  | none => none
  | some (_devmajor, s8) =>
  match readHex8 s8 with
  | none => none
  | some (_devminor, s9) =>
  match readHex8 s9 with
  | none => none
  | some (_rdevmajor, s10) =>
  match readHex8 s10 with
  | none => none
  | some (_rdevminor, s11) =>
  match readHex8 s11 with
  | none => none
  | some (namesize, s12) =>
  match readHex8 s12 with
  | none => none
  | some (_check, s13) =>
  if namesize = 0 then none
  else if (s13.drop (namesize - 1)).take 1 ≠ [0] then none
  else
    let nameB := s13.take (namesize - 1)
    let s14 := (s13.drop namesize).drop (pad4Len (110 + namesize))
    let data := s14.take filesize
    let s15 := (s14.drop filesize).drop (pad4Len filesize)
    some ((bytesToName nameB, mode, data), s15)

/-- Modelled from the spec: a standard reader decodes entries until the
trailer sentinel name appears and ignores the stream past the trailer. The
fuel argument bounds the number of entries. -/
def decodeEntries : Nat → List Nat → Option (List (List Char × Nat × List Nat))
  | 0, _ => none
  | fuel + 1, s =>
    match decodeEntry s with
    | none => none
    | some (e, rest) =>
      if e.1 = trailerName then some []
      else
        match decodeEntries fuel rest with
        | none => none
        | some es => some (e :: es)

/-- Modelled from the spec: full decode of an archive stream; the stream
length plus one always bounds the number of entries because every entry
occupies at least one byte. -/
def cpio_decode (s : List Nat) : Option (List (List Char × Nat × List Nat)) :=
  decodeEntries (s.length + 1) s

/-- Taking the magic off a stream that starts with it. -/
theorem take6_magic (R : List Nat) : (cpioMagic ++ R).take 6 = cpioMagic :=
  List.take_left' rfl

/-- Dropping the magic off a stream that starts with it. -/
theorem drop6_magic (R : List Nat) : (cpioMagic ++ R).drop 6 = R :=
  List.drop_left' rfl

/-- The padding emitted by the builder has the length the reader skips. -/
theorem pad4_length (n : Nat) : (pad4 n).length = pad4Len n := by
  by_cases h : n % 4 = 0 <;> simp [pad4, pad4Len, h]

/-- Dropping a prefix of known length plus one more byte. -/
theorem drop_len_succ_append (nb : List Nat) (b : Nat) (Z : List Nat) :
    (nb ++ (b :: Z)).drop (nb.length + 1) = Z := by
  have : nb ++ (b :: Z) = (nb ++ [b]) ++ Z := by
    simp
  rw [this]
  exact List.drop_left' (by simp)

/-- Decoding an encoded entry stream: the reader applied to the byte string
of one well-bounded entry followed by anything recovers the name, mode and
content and leaves exactly the following bytes. -/
theorem decodeEntry_encoded_stream (name : List Char) (data : List Nat)
    (mode ino nlink : Nat) (rest : List Nat)
    (hino : ino < 4294967296) (hmode : mode < 4294967296) (hnlink : nlink < 4294967296)
    (hdata : data.length < 4294967296) (hname : name.length + 1 < 4294967296) :
    decodeEntry (_cpio_header ino mode 0 0 nlink 0 data.length 0 0 0 0 (name.length + 1) ++
      (name.map Char.toNat ++ ([0] ++ (pad4 (110 + (name.length + 1)) ++
        (data ++ (pad4 data.length ++ rest)))))) = some ((name, mode, data), rest) := by
  have h0 : (0 : Nat) < 4294967296 := by norm_num
  have hhdr : _cpio_header ino mode 0 0 nlink 0 data.length 0 0 0 0 (name.length + 1) =
      cpioMagic ++ (hexFixed 8 ino ++ (hexFixed 8 mode ++ (hexFixed 8 0 ++ (hexFixed 8 0 ++
        (hexFixed 8 nlink ++ (hexFixed 8 0 ++ (hexFixed 8 data.length ++ (hexFixed 8 0 ++
        (hexFixed 8 0 ++ (hexFixed 8 0 ++ (hexFixed 8 0 ++ (hexFixed 8 (name.length + 1) ++
        hexFixed 8 0)))))))))))) := by
    simp only [_cpio_header, pyHex8_of_lt _ hino, pyHex8_of_lt _ hmode,
      pyHex8_of_lt _ hnlink, pyHex8_of_lt _ hdata, pyHex8_of_lt _ hname,
      pyHex8_of_lt _ h0, List.append_assoc]
  rw [hhdr]
  simp only [List.append_assoc]
  simp only [decodeEntry, take6_magic, drop6_magic]
  rw [if_neg (by simp)]
  simp only [readHex8_encode _ _ hino, readHex8_encode _ _ hmode, readHex8_encode _ _ h0,
    readHex8_encode _ _ hnlink, readHex8_encode _ _ hdata, readHex8_encode _ _ hname]
  rw [if_neg (by omega : ¬name.length + 1 = 0)]
  have hnb : (name.map Char.toNat).length = name.length := List.length_map _ _
  have hs13take : ((name.map Char.toNat) ++ ([0] ++ (pad4 (110 + (name.length + 1)) ++
      (data ++ (pad4 data.length ++ rest))))).take (name.length + 1 - 1) =
      name.map Char.toNat := by
    simp only [Nat.add_sub_cancel]
    exact List.take_left' hnb
  have hs13droptake : (((name.map Char.toNat) ++ ([0] ++ (pad4 (110 + (name.length + 1)) ++
      (data ++ (pad4 data.length ++ rest))))).drop (name.length + 1 - 1)).take 1 = [0] := by
    simp only [Nat.add_sub_cancel]
    rw [List.drop_left' hnb]
    rfl
  have hs13drop : ((name.map Char.toNat) ++ ([0] ++ (pad4 (110 + (name.length + 1)) ++
      (data ++ (pad4 data.length ++ rest))))).drop (name.length + 1) =
      pad4 (110 + (name.length + 1)) ++ (data ++ (pad4 data.length ++ rest)) := by
    have := drop_len_succ_append (name.map Char.toNat) 0
      (pad4 (110 + (name.length + 1)) ++ (data ++ (pad4 data.length ++ rest)))
    rw [hnb] at this
    simpa using this
  have hpadskip : (pad4 (110 + (name.length + 1)) ++ (data ++ (pad4 data.length ++ rest))).drop
      (pad4Len (110 + (name.length + 1))) = data ++ (pad4 data.length ++ rest) :=
    List.drop_left' (pad4_length _)
  have hdtake : (data ++ (pad4 data.length ++ rest)).take data.length = data :=
    List.take_left' rfl
  have hddrop : (data ++ (pad4 data.length ++ rest)).drop data.length =
      pad4 data.length ++ rest :=
    List.drop_left' rfl
  have hpad2 : (pad4 data.length ++ rest).drop (pad4Len data.length) = rest :=
    List.drop_left' (pad4_length _)
  have hbn : bytesToName (name.map Char.toNat) = name := by
    simp [bytesToName, List.map_map, Function.comp_def, Char.ofNat_toNat]
  rw [if_neg (by rw [hs13droptake]; simp)]
  simp only [hs13take, hs13drop, hpadskip, hdtake, hddrop, hpad2, hbn]

/-- Header length is 110 bytes whenever every field fits in eight digits. -/
theorem cpio_header_length (ino mode nlink filesize namesize : Nat)
    (hino : ino < 4294967296) (hmode : mode < 4294967296) (hnlink : nlink < 4294967296)
    (hfs : filesize < 4294967296) (hns : namesize < 4294967296) :
    (_cpio_header ino mode 0 0 nlink 0 filesize 0 0 0 0 namesize).length = 110 := by
  have h0 : (0 : Nat) < 4294967296 := by norm_num
  have h6 : cpioMagic.length = 6 := rfl
  simp [_cpio_header, pyHex8_of_lt _ hino, pyHex8_of_lt _ hmode, pyHex8_of_lt _ hnlink,
    pyHex8_of_lt _ hfs, pyHex8_of_lt _ hns, pyHex8_of_lt _ h0, List.length_append,
    hexFixed_length, h6]

/-- Decoding inverts the entry builder for a well-bounded entry: the encoder
succeeds and the reader recovers exactly the name, mode and content. -/
theorem decodeEntry_cpio_entry (name : List Char) (data : List Nat)
    (mode ino nlink : Nat) (rest : List Nat)
    (hascii : ∀ c ∈ name, c.toNat ≤ 127)
    (hino : ino < 4294967296) (hmode : mode < 4294967296) (hnlink : nlink < 4294967296)
    (hdata : data.length < 4294967296) (hname : name.length + 1 < 4294967296) :
    ∃ b, _cpio_entry name data mode ino nlink = some b ∧
      decodeEntry (b ++ rest) = some ((name, mode, data), rest) := by
  have hall : name.all (fun c => c.toNat ≤ 127) = true :=
    List.all_eq_true.mpr (fun c hc => by simpa using hascii c hc)
  have henc : encodeAscii name = some (name.map Char.toNat) := by
    simp [encodeAscii, hall]
  have hlen110 : (_cpio_header ino mode 0 0 nlink 0 data.length 0 0 0 0
      (name.length + 1)).length = 110 :=
    cpio_header_length ino mode nlink data.length (name.length + 1) hino hmode hnlink
      hdata hname
  have he : _cpio_entry name data mode ino nlink =
      some (_cpio_header ino mode 0 0 nlink 0 data.length 0 0 0 0 (name.length + 1) ++
        (name.map Char.toNat ++ ([0] ++ (pad4 (110 + (name.length + 1)) ++
          (data ++ pad4 data.length))))) := by
    simp only [_cpio_entry, henc, hlen110, List.append_assoc]
  refine ⟨_, he, ?_⟩
  have hstream := decodeEntry_encoded_stream name data mode ino nlink rest hino hmode
    hnlink hdata hname
  rw [← hstream]
  simp only [List.append_assoc]

/-- Every successfully encoded entry occupies at least one byte. -/
theorem cpio_entry_length_pos (name : List Char) (data : List Nat)
    (mode ino nlink : Nat) (b : List Nat)
    (h : _cpio_entry name data mode ino nlink = some b) : 1 ≤ b.length := by
  unfold _cpio_entry at h
  cases henc : encodeAscii name with
  | none =>
    rw [henc] at h
    exact absurd h (by simp)
  | some nb =>
    rw [henc] at h
    have hb : _cpio_header ino mode 0 0 nlink 0 data.length 0 0 0 0 (name.length + 1) ++
        nb ++ [0] ++ pad4 ((_cpio_header ino mode 0 0 nlink 0 data.length 0 0 0 0
          (name.length + 1)).length + (name.length + 1)) ++ data ++
        pad4 data.length = b := by
      simpa using h
    have h6 : cpioMagic.length = 6 := rfl
    rw [← hb]
    simp [_cpio_header, List.length_append, h6]
    omega

/-- Well-bounded entry description: ASCII name distinct from the trailer
sentinel, all numeric header fields below 2 ^ 32. -/
def GoodEntry (e : CpioFileSpec) : Prop :=
  (∀ c ∈ e.name, c.toNat ≤ 127) ∧ e.name ≠ trailerName ∧
  e.ino < 4294967296 ∧ e.mode < 4294967296 ∧ e.nlink < 4294967296 ∧
  e.data.length < 4294967296 ∧ e.name.length + 1 < 4294967296

instance (e : CpioFileSpec) : Decidable (GoodEntry e) := by
  unfold GoodEntry
  infer_instance

/-- Archive streams have at least as many bytes as entries. -/
theorem cpio_entries_bytes_length (es : List CpioFileSpec) (b : List Nat)
    (h : cpio_entries_bytes (es ++ [trailerSpec]) = some b) : es.length ≤ b.length := by
  induction es generalizing b with
  | nil => exact Nat.zero_le _
  | cons e tl ih =>
    rw [List.cons_append] at h
    cases he1 : _cpio_entry e.name e.data e.mode e.ino e.nlink with
    | none => simp [cpio_entries_bytes, he1] at h
    | some be =>
      cases he2 : cpio_entries_bytes (tl ++ [trailerSpec]) with
      | none => simp [cpio_entries_bytes, he1, he2] at h
      | some bt =>
        have hb : be ++ bt = b := by
          simpa [cpio_entries_bytes, he1, he2] using h
        have h1 := cpio_entry_length_pos e.name e.data e.mode e.ino e.nlink be he1
        have h2 := ih bt he2
        rw [← hb]
        simp only [List.length_append, List.length_cons]
        omega

/-- Decoding inverts the archive builder for well-bounded entries, at any
fuel exceeding the entry count. -/
theorem decodeEntries_archive (es : List CpioFileSpec) :
    (∀ e ∈ es, GoodEntry e) → ∀ fuel, es.length < fuel → ∀ rest,
    ∃ b, cpio_entries_bytes (es ++ [trailerSpec]) = some b ∧
      decodeEntries fuel (b ++ rest) = some (es.map fun e => (e.name, e.mode, e.data)) := by
  induction es with
  | nil =>
    intro _ fuel hfuel rest
    obtain ⟨m, rfl⟩ : ∃ m, fuel = m + 1 := ⟨fuel - 1, by omega⟩
    obtain ⟨tb, htb, hdec⟩ := decodeEntry_cpio_entry trailerName [] 0 0 1 rest
      (by decide) (by norm_num) (by norm_num) (by norm_num) (by norm_num) (by decide)
    refine ⟨tb ++ [], ?_, ?_⟩
    · simp [cpio_entries_bytes, trailerSpec, htb]
    · simp [decodeEntries, hdec]
  | cons e tl ih =>
    intro hgood fuel hfuel rest
    obtain ⟨m, rfl⟩ : ∃ m, fuel = m + 1 := ⟨fuel - 1, by omega⟩
    obtain ⟨hascii, hnotr, hino, hmode, hnlink, hdata, hname⟩ := hgood e (by simp)
    obtain ⟨bt, hbt, hdect⟩ := ih (fun x hx => hgood x (List.mem_cons_of_mem _ hx)) m
      (by simp only [List.length_cons] at hfuel; omega) rest
    obtain ⟨be, hbe, hdece⟩ := decodeEntry_cpio_entry e.name e.data e.mode e.ino e.nlink
      (bt ++ rest) hascii hino hmode hnlink hdata hname
    refine ⟨be ++ bt, ?_, ?_⟩
    · simp [cpio_entries_bytes, hbe, hbt]
    · have hassoc : (be ++ bt) ++ rest = be ++ (bt ++ rest) := List.append_assoc _ _ _
      rw [hassoc]
      simp [decodeEntries, hdece, hnotr, hdect]

/-- C6 amended: for every ordered entry list with ASCII names distinct from
the trailer sentinel and all numeric fields below 2 ^ 32, decoding the
archive produced by the builder with a standard newc reader reproduces the
original names, modes and contents exactly. -/
theorem cpio_archive_roundtrip (es : List CpioFileSpec) (hgood : ∀ e ∈ es, GoodEntry e) :
    ∃ b, cpio_archive es = some b ∧
      cpio_decode b = some (es.map fun e => (e.name, e.mode, e.data)) := by
  obtain ⟨b, hb, _⟩ := decodeEntries_archive es hgood (es.length + 1) (by omega) []
  have hlen := cpio_entries_bytes_length es b hb
  obtain ⟨b2, hb2, hdec2⟩ := decodeEntries_archive es hgood (b.length + 1) (by omega) []
  rw [hb] at hb2
  have hbb : b2 = b := by
    injection hb2.symm
  subst hbb
  refine ⟨b2, hb, ?_⟩
  unfold cpio_decode
  simpa using hdec2

set_option maxRecDepth 100000 in
/-- Counterexample to C6 as stated: an entry legitimately named with the
trailer sentinel string encodes successfully, yet the standard reader stops
at it and reproduces an empty entry list instead of the original entries. -/
theorem cpio_roundtrip_cex :
    (cpio_archive [⟨trailerName, [1, 2, 3, 4], 0o100644, 1, 1⟩]).isSome = true ∧
    cpio_decode ((cpio_archive [⟨trailerName, [1, 2, 3, 4], 0o100644, 1, 1⟩]).getD []) ≠
      some (([⟨trailerName, [1, 2, 3, 4], 0o100644, 1, 1⟩] : List CpioFileSpec).map
        fun e => (e.name, e.mode, e.data)) := by
  constructor
  · decide
  · decide

set_option maxRecDepth 100000 in
/-- Witness for the amended C6 at a one-entry archive. -/
theorem cpio_archive_roundtrip_witness :
    (∀ e ∈ ([⟨"init".toList, [9, 9, 9], 0o100755, 5, 1⟩] : List CpioFileSpec), GoodEntry e) ∧
    ∃ b, cpio_archive [⟨"init".toList, [9, 9, 9], 0o100755, 5, 1⟩] = some b ∧
      cpio_decode b = some (([⟨"init".toList, [9, 9, 9], 0o100755, 5, 1⟩] :
        List CpioFileSpec).map fun e => (e.name, e.mode, e.data)) :=
  ⟨by decide, cpio_archive_roundtrip [⟨"init".toList, [9, 9, 9], 0o100755, 5, 1⟩]
    (by decide)⟩
